import Mathlib

/-!
Shallow embedding of the signal_processing toolkit core
(`remove_shots` and `detect_peaks` of src/__init__.py) and
verification of the frozen claims about it.

Numeric samples are modelled exactly: a Python float value is either a
rational number or NaN (`Val`), and a sample slot is `Option Val`
(`none` models the Python `None` missing marker).  Operations that the
Python code would abort with a `TypeError` (arithmetic or ordered
comparison on `None`) are modelled in the `Except Err` monad.
-/

namespace SigProc

/-- A Python float value: either an exact rational or NaN.  (The code
only produces NaN through `np.average` of an empty list; infinities of
`detect_peaks` are modelled separately by `XV`.) -/
inductive Val where
  | q (x : ℚ)
  | nan
  deriving DecidableEq

/-- A sample slot of a signal: `none` models the Python `None` marker. -/
abbrev Sample : Type := Option Val

/-- Errors the Python code can raise: `TypeError` from arithmetic or an
ordered comparison involving `None`. -/
inductive Err where
  | typeError
  deriving DecidableEq

/-- Float addition with NaN propagation. -/
def vAdd : Val → Val → Val
  | Val.q a, Val.q b => Val.q (a + b)
  | _, _ => Val.nan

/-- Float subtraction with NaN propagation. -/
def vSub : Val → Val → Val
  | Val.q a, Val.q b => Val.q (a - b)
  | _, _ => Val.nan

/-- Float multiplication by a (never-NaN) rational, with NaN propagation. -/
def vMulQ : Val → ℚ → Val
  | Val.q a, c => Val.q (a * c)
  | Val.nan, _ => Val.nan

/-- Float absolute value with NaN propagation. -/
def vAbs : Val → Val
  | Val.q a => Val.q |a|
  | Val.nan => Val.nan

/-- The comparison `v > c` for a float `v` and rational `c`:
false when `v` is NaN, as in Python. -/
def vGtQ : Val → ℚ → Bool
  | Val.q a, c => decide (c < a)
  | Val.nan, _ => false

/-- Python `sample > t` for a sample and a numeric threshold:
`TypeError` on `None`, false on NaN. -/
def sGt : Sample → ℚ → Except Err Bool
  | none, _ => .error .typeError
  | some v, t => .ok (vGtQ v t)

/-- Python `sample < t` for a sample and a numeric threshold:
`TypeError` on `None`, false on NaN. -/
def sLt : Sample → ℚ → Except Err Bool
  | none, _ => .error .typeError
  | some (Val.q a), t => .ok (decide (a < t))
  | some Val.nan, _ => .ok false

/-- Python `abs(a - b)` on two samples: `TypeError` when either is `None`. -/
def sAbsSub : Sample → Sample → Except Err Val
  | some a, some b => .ok (vAbs (vSub a b))
  | _, _ => .error .typeError

/-- NaN detector for float lists. -/
def hasNan : List Val → Bool
  | [] => false
  | Val.nan :: _ => true
  | Val.q _ :: rest => hasNan rest

/-- `np.average` over a list of float values: NaN for the empty list
(numpy warns and returns NaN, it does not raise) and NaN as soon as one
entry is NaN; otherwise the exact mean. -/
def meanV (l : List Val) : Val :=
  if l.isEmpty || hasNan l then Val.nan
  else Val.q ((l.foldr (fun v acc => match v with | Val.q x => x + acc | Val.nan => acc) 0) / l.length)

/-- `np.average([v for v in signal if v is not None])`: the mean of the
currently non-missing samples, always a float (possibly NaN). -/
def meanSome (sig : List Sample) : Sample :=
  some (meanV (sig.filterMap id))

/-- Flag scanner for the enumerate-comprehension criteria: collects the
indices (starting at `i`) whose sample satisfies `f`, propagating the
first error as Python does when the comprehension evaluates left to
right. -/
def flagsAux (f : Sample → Except Err Bool) : List Sample → ℕ → Except Err (List ℕ)
  | [], _ => .ok []
  | s :: rest, i =>
    match f s with
    | .error e => .error e
    | .ok b =>
      match flagsAux f rest (i + 1) with
      | .error e => .error e
      | .ok l => .ok (if b then i :: l else l)

/-- Population standard-deviation comparison used by the `devs`
criterion: decides `lhs > Real.sqrt var * d` exactly for rationals
`lhs d` and `var ≥ 0`, by sign analysis and squaring. -/
def gtSqrtMul (lhs varq d : ℚ) : Bool :=
  if d = 0 ∨ varq = 0 then decide (0 < lhs)
  else if 0 < d then decide (0 < lhs) && decide (varq * d ^ 2 < lhs ^ 2)
  else decide (0 ≤ lhs) || decide (lhs ^ 2 < varq * d ^ 2)

/-- The `devs` criterion of `remove_shots`: `np.average` and `np.std`
over the raw signal (`TypeError` when a `None` is present; NaN when a
NaN is present, in which case every comparison is false), then flag the
samples deviating by more than `devs` standard deviations (one-sided
when `positive_only`).  `hasNone` detects a Python `None` in the raw
signal. -/
def hasNone : List Sample → Bool
  | [] => false
  | none :: _ => true
  | some _ :: rest => hasNone rest

/-- The `devs` criterion (see the doc comment above). -/
def devsFlags (sig : List Sample) (d : ℚ) (positive_only : Bool) : Except Err (List ℕ) :=
  if hasNone sig then .error .typeError
  else
    let vs := sig.filterMap id
    if hasNan vs || vs.isEmpty then .ok []
    else
      let xs := vs.filterMap (fun v => match v with | Val.q x => some x | Val.nan => none)
      let avg : ℚ := xs.sum / xs.length
      let varq : ℚ := (xs.map (fun x => (x - avg) ^ 2)).sum / xs.length
      flagsAux (fun s => match s with
        | some (Val.q x) =>
          .ok (gtSqrtMul (if positive_only then x - avg else |x - avg|) varq d)
        | _ => .ok false) sig 0

/-- Inner while of the jump criterion: starting at position `j` with the
fixed comparison base `base` (the sample at the last unflagged position
`i`), flag positions while `abs(signal[j] - base) > jump`; returns the
flagged positions and the final `j`.  `fuel` bounds the recursion; the
caller supplies at least `sig.length` so it never runs out before
`j = sig.length`. -/
def jumpInner (sig : List Sample) (jp : ℚ) (base : Sample) : ℕ → ℕ → Except Err (List ℕ × ℕ)
  | 0, j => .ok ([], j)
  | fuel + 1, j =>
    if j < sig.length then
      match sAbsSub (sig.getD j none) base with
      | .error e => .error e
      | .ok d =>
        if vGtQ d jp then
          (jumpInner sig jp base fuel (j + 1)).map (fun r => (j :: r.1, r.2))
        else .ok ([], j)
    else .ok ([], j)

/-- Outer while of the jump criterion: `i` walks forward, jumping to the
first position that came back within `jump` of `signal[i]`. -/
def jumpOuter (sig : List Sample) (jp : ℚ) : ℕ → ℕ → Except Err (List ℕ)
  | 0, _ => .ok []
  | fuel + 1, i =>
    if i + 1 < sig.length then
      match jumpInner sig jp (sig.getD i none) sig.length (i + 1) with
      | .error e => .error e
      | .ok (l, jf) => (jumpOuter sig jp fuel jf).map (fun r => l ++ r)
    else .ok []

/-- The jump-discontinuity criterion of `remove_shots` (lines 99-107 of
the source).  The outer index advances by at least one per iteration, so
`sig.length + 1` units of fuel always suffice. -/
def jumpFlags (sig : List Sample) (jp : ℚ) : Except Err (List ℕ) :=
  jumpOuter sig jp (sig.length + 1) 0

/-- Python `list(set(xs)); xs.sort()`: the sorted list of the distinct
flagged indices. -/
def sortDedup (l : List ℕ) : List ℕ :=
  l.dedup.insertionSort (· ≤ ·)

/-- The keyword parameters of `remove_shots`, in source order. -/
structure ShotParams where
  threshold_high : Option ℚ
  threshold_low : Option ℚ
  devs : Option ℚ
  positive_only : Bool
  nones : Bool
  zeros : Bool
  jump : Option ℚ

/-- Lines 86-109 of the source: the union of the violating indices of
every enabled criterion, deduplicated and sorted.  Criteria are
evaluated in source order, so the first raising criterion determines the
error.  `ebind` is monadic bind for `Except Err`, written as an explicit
match. -/
def ebind {α β : Type} : Except Err α → (α → Except Err β) → Except Err β
  | .error e, _ => .error e
  | .ok a, f => f a

/-- Lines 86-109 of the source: the union of the violating indices of
every enabled criterion, deduplicated and sorted.  Criteria are
evaluated in source order, so the first raising criterion determines the
error. -/
def shotIndexes (p : ShotParams) (sig : List Sample) : Except Err (List ℕ) :=
  ebind (match p.threshold_high with
    | none => .ok []
    | some t => flagsAux (fun s => sGt s t) sig 0) fun l1 =>
  ebind (match p.threshold_low with
    | none => .ok []
    | some t => flagsAux (fun s => sLt s t) sig 0) fun l2 =>
  ebind (match p.devs with
    | none => .ok []
    | some d => devsFlags sig d p.positive_only) fun l3 =>
  ebind (if p.nones then flagsAux (fun s => .ok s.isNone) sig 0 else .ok []) fun l4 =>
  ebind (if p.zeros then
      flagsAux (fun s => .ok (match s with | some (Val.q x) => decide (x = 0) | _ => false)) sig 0
    else .ok []) fun l5 =>
  ebind (match p.jump with
    | none => .ok []
    | some jp => jumpFlags sig jp) fun l6 =>
  .ok (sortDedup (l1 ++ l2 ++ l3 ++ l4 ++ l5 ++ l6))

/-- Inner while of the replacement loop (line 116): extend `stop` while
the next flagged indices are contiguous with it. -/
def stopExtend (stop : ℕ) : List ℕ → ℕ
  | [] => stop
  | r :: rs => if r = stop then stopExtend (stop + 1) rs else stop

/-- The `stop_index` of one replacement step: extended over the
remaining contiguous flagged indices and clamped to `n - 1` when it
reaches the signal length (lines 114-120). -/
def runStop (n shot : ℕ) (rest : List ℕ) : ℕ :=
  if stopExtend (shot + 1) rest = n then n - 1 else stopExtend (shot + 1) rest

/-- Line 121: `pos = (shot_index - start_index) / (stop_index - start_index)`
with `start_index = shot_index - 1` (an integer, possibly `-1`). -/
def posOf (shot stop : ℕ) : ℚ :=
  (((shot : ℤ) - ((shot : ℤ) - 1) : ℤ) : ℚ) / (((stop : ℤ) - ((shot : ℤ) - 1) : ℤ) : ℚ)

/-- Lines 123-126: write the replacement for `shot` given the start
value `sv` and the stop-side sample `tv`; interpolate when `tv` is
numeric (a `TypeError` if `sv` is `None` there), flat-fill with `sv`
when `tv` is missing. -/
def fillCore (sig : List Sample) (shot stop : ℕ) (sv tv : Sample) : Except Err (List Sample) :=
  match tv, sv with
  | some t, some s => .ok (sig.set shot (some (vAdd s (vMulQ (vSub t s) (posOf shot stop)))))
  | some _, none => .error .typeError
  | none, v => .ok (sig.set shot v)

/-- One iteration of the replacement loop (lines 112-127), generalised
over the list `anch` the two interpolation anchors are read from; the
source behaviour is `anch := sig` (the current, partially edited
signal).  `shot` is the flagged index being replaced and `rest` the
remaining flagged indices after it.  The start value is the anchor at
`start_index = shot - 1` when `start_index > 0`, and the mean of the
currently non-missing samples otherwise (line 122). -/
def fillStepG (anch sig : List Sample) (shot : ℕ) (rest : List ℕ) : Except Err (List Sample) :=
  fillCore sig shot (runStop sig.length shot rest)
    (if 0 < (shot : ℤ) - 1 then anch.getD (shot - 1) none else meanSome sig)
    (anch.getD (runStop sig.length shot rest) none)

/-- One iteration of the replacement loop exactly as the source runs it:
anchors are read from the current (partially edited) signal. -/
def fillStep (sig : List Sample) (shot : ℕ) (rest : List ℕ) : Except Err (List Sample) :=
  fillStepG sig sig shot rest

/-- The replacement loop of lines 110-127: each flagged index is
processed in ascending order, one per iteration. -/
def fillLoop : List Sample → List ℕ → Except Err (List Sample)
  | sig, [] => .ok sig
  | sig, shot :: rest =>
    match fillStep sig shot rest with
    | .error e => .error e
    | .ok sig' => fillLoop sig' rest

/-- The claim-side variant of the replacement loop in which both
interpolation anchors are read from the original signal `orig` (never
from an already overwritten slot), as claim C4 asserts the source
behaves.  The mean fallback still reads the current signal. -/
def fillLoopO (orig : List Sample) : List Sample → List ℕ → Except Err (List Sample)
  | sig, [] => .ok sig
  | sig, shot :: rest =>
    match fillStepG orig sig shot rest with
    | .error e => .error e
    | .ok sig' => fillLoopO orig sig' rest

/-- Instrumented replacement loop: also returns the list of indices the
loop assigns to, in order. -/
def fillLoopW : List Sample → List ℕ → Except Err (List Sample × List ℕ)
  | sig, [] => .ok (sig, [])
  | sig, shot :: rest =>
    match fillStep sig shot rest with
    | .error e => .error e
    | .ok sig' =>
      match fillLoopW sig' rest with
      | .error e => .error e
      | .ok r => .ok (r.1, shot :: r.2)

/-- `remove_shots` (lines 82-128 of the source): flag, then replace. -/
def remove_shots (p : ShotParams) (sig : List Sample) : Except Err (List Sample) :=
  ebind (shotIndexes p sig) (fillLoop sig)

/-- The replacement value claim C3 prescribes for index `k` of the
anomaly run `[a..b]` of `sig`: fractional position measured from the
first flagged index `a` of the run, with the start value taken at
`a - 1` whenever `a - 1 ≥ 0` and the mean fallback only when the run
begins at index 0; flat fill when the stop-side value is missing. -/
def c3ClaimValue (sig : List Sample) (a b k : ℕ) : Sample :=
  let sv : Sample := if 1 ≤ a then sig.getD (a - 1) none else meanSome sig
  let tv : Sample := sig.getD (b + 1) none
  let pos : ℚ := (((k : ℚ) - (a : ℚ))) / (((b : ℚ) + 1) - ((a : ℚ) - 1))
  match tv, sv with
  | some t, some s => some (vAdd s (vMulQ (vSub t s) pos))
  | some _, none => none
  | none, v => v

/-! ### detect_peaks (lines 158-192 of the source) -/

/-- The running-candidate register of `detect_peaks`: a float value or
one of the `np.Inf` / `-np.Inf` sentinels. -/
inductive XV where
  | pinf
  | ninf
  | fin (q : ℚ)
  deriving DecidableEq

/-- `a < x` for a float `a` and register `x`. -/
def xvLt (a : ℚ) : XV → Bool
  | XV.pinf => true
  | XV.ninf => false
  | XV.fin q => decide (a < q)

/-- `a > x` for a float `a` and register `x`. -/
def xvGt (a : ℚ) : XV → Bool
  | XV.pinf => false
  | XV.ninf => true
  | XV.fin q => decide (q < a)

/-- `x - d` for a register and a float `d` (infinities absorb). -/
def xvSub : XV → ℚ → XV
  | XV.pinf, _ => XV.pinf
  | XV.ninf, _ => XV.ninf
  | XV.fin q, d => XV.fin (q - d)

/-- `x + d` for a register and a float `d` (infinities absorb). -/
def xvAdd : XV → ℚ → XV
  | XV.pinf, _ => XV.pinf
  | XV.ninf, _ => XV.ninf
  | XV.fin q, d => XV.fin (q + d)

/-- The float stored in a register; only read under a guard that rules
the sentinels out, so the default is never observed. -/
def xvToQ : XV → ℚ
  | XV.fin q => q
  | _ => 0

/-- The guard `x != np.Inf`. -/
def xvNePinf : XV → Bool
  | XV.pinf => false
  | _ => true

/-- The guard `x != -np.Inf`. -/
def xvNeNinf : XV → Bool
  | XV.ninf => false
  | _ => true

/-- `signal[i:i+la].max()`; on the scanned positions the slice is
nonempty and entirely in range, so the empty default is never hit. -/
def sliceMax (sig : List ℚ) (i la : ℕ) : ℚ :=
  match (sig.drop i).take la with
  | [] => 0
  | x :: xs => xs.foldl max x

/-- `signal[i:i+la].min()`. -/
def sliceMin (sig : List ℚ) (i la : ℕ) : ℚ :=
  match (sig.drop i).take la with
  | [] => 0
  | x :: xs => xs.foldl min x

/-- The scan state of `detect_peaks`: the two candidate registers with
their positions, and the two output accumulators.  The positions start
at 0 (unbound in Python, but only read after their register left its
initial sentinel, which sets the position first). -/
structure DP where
  maxv : XV
  maxp : ℕ
  minv : XV
  minp : ℕ
  peaks : List (ℕ × ℚ)
  valleys : List (ℕ × ℚ)
  deriving DecidableEq

/-- Lines 169-171: update the running-maximum candidate. -/
def updMax (i : ℕ) (v : ℚ) (st : DP) : DP :=
  if xvGt v st.maxv then { st with maxv := XV.fin v, maxp := i } else st

/-- Lines 172-174: update the running-minimum candidate. -/
def updMin (i : ℕ) (v : ℚ) (st : DP) : DP :=
  if xvLt v st.minv then { st with minv := XV.fin v, minp := i } else st

/-- Lines 175-191, after the candidate updates: try to confirm a peak
(on confirmation the valley check of this iteration is skipped, as by
the `continue`), else a valley.  The returned flag is true when the
`break` fires. -/
def dpStepConfirm (sig : List ℚ) (la : ℕ) (delta : ℚ) (i : ℕ) (stB : DP) : DP × Bool :=
  if xvLt (sig.getD i 0) (xvSub stB.maxv delta) && xvNePinf stB.maxv &&
      xvLt (sliceMax sig i la) stB.maxv then
    ({ stB with peaks := stB.peaks ++ [(stB.maxp, xvToQ stB.maxv)], maxv := XV.pinf, minv := XV.pinf },
      decide (sig.length ≤ i + la))
  else if xvGt (sig.getD i 0) (xvAdd stB.minv delta) && xvNeNinf stB.minv &&
      xvGt (sliceMin sig i la) stB.minv then
    ({ stB with valleys := stB.valleys ++ [(stB.minp, xvToQ stB.minv)], minv := XV.ninf, maxv := XV.ninf },
      decide (sig.length ≤ i + la))
  else (stB, false)

/-- One iteration of the `detect_peaks` scan at position `i`. -/
def dpStep (sig : List ℚ) (la : ℕ) (delta : ℚ) (i : ℕ) (st : DP) : DP × Bool :=
  dpStepConfirm sig la delta i (updMin i (sig.getD i 0) (updMax i (sig.getD i 0) st))

/-- The `detect_peaks` scan over the candidate positions. -/
def dpLoop (sig : List ℚ) (la : ℕ) (delta : ℚ) : List ℕ → DP → DP
  | [], st => st
  | i :: rest, st =>
    match dpStep sig la delta i st with
    | (st', brk) => if brk then st' else dpLoop sig la delta rest st'

/-- The scanned positions: those of `signal[:-lookahead]` — empty when
`lookahead = 0` (Python `[:-0]`), positions `0 .. n - lookahead - 1`
otherwise. -/
def dpIdxs (sig : List ℚ) (la : ℕ) : List ℕ :=
  if la = 0 then [] else List.range (sig.length - la)

/-- The initial scan state: `min_value, max_value = np.Inf, -np.Inf`;
the positions are unbound in Python and only read after being set, 0
here. -/
def dpInit : DP := ⟨XV.ninf, 0, XV.pinf, 0, [], []⟩

/-- `detect_peaks` (lines 158-192 of the source; Python defaults are
`lookahead=300`, `delta=0`). -/
def detect_peaks (sig : List ℚ) (la : ℕ) (delta : ℚ) :
    List (ℕ × ℚ) × List (ℕ × ℚ) :=
  ((dpLoop sig la delta (dpIdxs sig la) dpInit).peaks,
    (dpLoop sig la delta (dpIdxs sig la) dpInit).valleys)

/-- All positions recorded in a scan state are bounded by `B`. -/
def DPB (B : ℕ) (st : DP) : Prop :=
  st.maxp ≤ B ∧ st.minp ≤ B ∧
    (∀ p ∈ st.peaks, p.1 ≤ B) ∧ (∀ p ∈ st.valleys, p.1 ≤ B)

/-! ### Specification-side helpers for the run-interpolation claim -/

/-- Write `g i` at every index of `l`, left to right. -/
def writeAll (g : ℕ → Sample) : List Sample → List ℕ → List Sample
  | sig, [] => sig
  | sig, i :: rest => writeAll g (sig.set i (g i)) rest

/-- The straight line through `(a - 1, u)` and `(a + r, t)` sampled at
integer position `i`. -/
def lineSample (a r : ℕ) (u t : ℚ) (i : ℕ) : Sample :=
  some (Val.q (u + (t - u) * (((i : ℚ) - (a : ℚ) + 1) / ((r : ℚ) + 1))))

/-- Overwrite positions `a .. a + r - 1` of `sig` with the straight line
from `(a - 1, u)` to `(a + r, t)`. -/
def setLine (sig : List Sample) (a r : ℕ) (u t : ℚ) : List Sample :=
  writeAll (lineSample a r u t) sig (List.range' a r)

/-! ### Concrete inputs used by the claims -/

/-- Shorthand for a numeric sample. -/
def numS (x : ℚ) : Sample := some (Val.q x)

/-- A signal of plain numeric samples. -/
def numList (l : List ℚ) : List Sample := l.map numS

/-- The test signal of claim C1. -/
def c1sig : List ℚ := [0, 1, 2, 3, 2, 1, 0, -1, -2, -1, 0, 1, 2]

/-- `remove_shots` keyword arguments `jump=5`. -/
def pJump5 : ShotParams := ⟨none, none, none, false, false, false, some 5⟩

/-- `remove_shots` keyword arguments `threshold_high=50`. -/
def pHigh50 : ShotParams := ⟨some 50, none, none, false, false, false, none⟩

/-- `remove_shots` keyword arguments `threshold_high=5`. -/
def pHigh5 : ShotParams := ⟨some 5, none, none, false, false, false, none⟩

/-- `remove_shots` keyword arguments `nones=True`. -/
def pNones : ShotParams := ⟨none, none, none, false, true, false, none⟩

/-! ### Helper lemmas about list writes and the loops -/

theorem getD_set_self {α : Type} (l : List α) (i : ℕ) (a d : α) (h : i < l.length) :
    (l.set i a).getD i d = a := by
  rw [List.getD_eq_getElem?_getD, List.getElem?_set_eq_of_lt a h]
  rfl

theorem getD_set_ne {α : Type} (l : List α) (i j : ℕ) (a d : α) (h : i ≠ j) :
    (l.set i a).getD j d = l.getD j d := by
  rw [List.getD_eq_getElem?_getD, List.getElem?_set_ne h, ← List.getD_eq_getElem?_getD]

theorem fillCore_ok_shape (sig : List Sample) (shot stop : ℕ) (sv tv : Sample)
    (sig' : List Sample) (h : fillCore sig shot stop sv tv = .ok sig') :
    ∃ v, sig' = sig.set shot v := by
  unfold fillCore at h
  split at h
  · exact ⟨_, (Except.ok.injEq _ _).mp h.symm⟩
  · exact Except.noConfusion h
  · exact ⟨_, (Except.ok.injEq _ _).mp h.symm⟩

theorem fillStepG_ok_shape (anch sig : List Sample) (shot : ℕ) (rest : List ℕ)
    (sig' : List Sample) (h : fillStepG anch sig shot rest = .ok sig') :
    ∃ v, sig' = sig.set shot v :=
  fillCore_ok_shape _ _ _ _ _ _ h

theorem fillLoop_length (l : List ℕ) : ∀ (sig sig' : List Sample),
    fillLoop sig l = .ok sig' → sig'.length = sig.length := by
  induction l with
  | nil => intro sig sig' h; cases h; rfl
  | cons shot rest ih =>
    intro sig sig' h
    unfold fillLoop at h
    cases hstep : fillStep sig shot rest with
    | error e => rw [hstep] at h; exact Except.noConfusion h
    | ok sig1 =>
      rw [hstep] at h
      obtain ⟨v, hv⟩ := fillStepG_ok_shape sig sig shot rest sig1 hstep
      have := ih sig1 sig' h
      rw [this, hv, List.length_set]

theorem fillLoop_frame (l : List ℕ) : ∀ (sig sig' : List Sample),
    fillLoop sig l = .ok sig' → ∀ x, x ∉ l → sig'.getD x none = sig.getD x none := by
  induction l with
  | nil => intro sig sig' h x _; cases h; rfl
  | cons shot rest ih =>
    intro sig sig' h x hx
    unfold fillLoop at h
    cases hstep : fillStep sig shot rest with
    | error e => rw [hstep] at h; exact Except.noConfusion h
    | ok sig1 =>
      rw [hstep] at h
      obtain ⟨v, hv⟩ := fillStepG_ok_shape sig sig shot rest sig1 hstep
      have h1 := ih sig1 sig' h x (fun hmem => hx (List.mem_cons_of_mem _ hmem))
      rw [h1, hv, getD_set_ne]
      exact fun he => hx (he ▸ List.mem_cons_self _ _)

theorem fillLoopW_eq (l : List ℕ) : ∀ sig : List Sample,
    fillLoopW sig l = (fillLoop sig l).map (fun r => (r, l)) := by
  induction l with
  | nil => intro sig; rfl
  | cons shot rest ih =>
    intro sig
    unfold fillLoopW fillLoop
    cases hstep : fillStep sig shot rest with
    | error e => rfl
    | ok sig1 =>
      dsimp only
      rw [ih sig1]
      cases fillLoop sig1 rest <;> rfl

/-! ### Claim C8: no flagged index means the signal is returned unchanged -/

/-- C8: whenever no enabled criterion flags any index (in particular when
no criterion is enabled at all), `remove_shots` returns its input signal
element for element. -/
theorem remove_shots_no_flags_id (p : ShotParams) (sig : List Sample)
    (h : shotIndexes p sig = .ok []) : remove_shots p sig = .ok sig := by
  unfold remove_shots
  rw [h]
  rfl

/-- Witness for C8: on `[1, 2, 3]` with no criteria enabled, the flag set
is empty and the signal comes back unchanged. -/
theorem remove_shots_no_flags_id_witness :
    remove_shots ⟨none, none, none, false, false, false, none⟩ (numList [1, 2, 3]) =
      .ok (numList [1, 2, 3]) :=
  remove_shots_no_flags_id _ _ (by with_unfolding_all rfl)

/-! ### Claim C1: the detect_peaks example of the spec -/

/-- Counterexample to C1: on `[0,1,2,3,2,1,0,-1,-2,-1,0,1,2]` with
`lookahead=3, delta=0` the code does not return exactly one valley
`(8, -2)`: an extra valley `(0, 0)` is confirmed at scan position 1. -/
theorem detect_peaks_example_refuted :
    detect_peaks c1sig 3 0 ≠ ([(3, 3)], [(8, -2)]) := by
  with_unfolding_all decide

/-- C1 (amended): on the example signal with `lookahead=3, delta=0` the
code confirms exactly one peak `(3, 3)` but two valleys: `(0, 0)` (the
initial sample, confirmed once the rise survives the lookahead window)
followed by `(8, -2)`. -/
theorem detect_peaks_example_value :
    detect_peaks c1sig 3 0 = ([(3, 3)], [(0, 0), (8, -2)]) := by
  with_unfolding_all decide

/-! ### Claim C2: the jump cascade example -/

/-- Counterexample to C2: on `[0,0,0,100,0,0,0]` with `jump=5` the
flagged set contains no index beyond 3 (the cascade re-evaluates against
the last unflagged sample, index 2, not against the contaminated
index 3). -/
theorem jump_cascade_refuted :
    (shotIndexes pJump5 (numList [0, 0, 0, 100, 0, 0, 0])).map
      (fun l => l.filter (fun k => decide (3 < k))) = .ok [] := by
  with_unfolding_all rfl

/-- C2 (amended): with `jump=5` the signal `[0,0,0,100,0,0,0]` flags
exactly index 3 — the inner cascade compares each subsequent sample to
the sample at the last unflagged index (index 2 here), so it stops at
index 4 — and the shot is interpolated back to 0. -/
theorem jump_flags_example :
    shotIndexes pJump5 (numList [0, 0, 0, 100, 0, 0, 0]) = .ok [3] ∧
      remove_shots pJump5 (numList [0, 0, 0, 100, 0, 0, 0]) =
        .ok (numList [0, 0, 0, 0, 0, 0, 0]) :=
  ⟨by with_unfolding_all rfl, by with_unfolding_all rfl⟩

/-! ### Claim C5: all samples missing, nones enabled -/

/-- Counterexample to C5: on the all-missing signal `[None, None, None]`
with `nones=True`, `remove_shots` raises nothing (there is no
`InvalidInputError` anywhere in the code): it returns normally, every
flagged sample filled with the NaN produced by the mean over zero
non-missing samples. -/
theorem all_missing_no_error :
    remove_shots pNones [none, none, none] =
      .ok [some Val.nan, some Val.nan, some Val.nan] := by
  with_unfolding_all rfl

/-! ### Claim C6: missing samples under a numeric threshold criterion -/

/-- Counterexample to C6: on `[1, None]` with `threshold_high=5` the
comparison `None > 5` does not short-circuit; `remove_shots` raises a
`TypeError`. -/
theorem threshold_none_type_error :
    remove_shots pHigh5 [numS 1, none] = .error Err.typeError := by
  with_unfolding_all rfl

theorem flagsAux_error_of_none (f : Sample → Except Err Bool)
    (hf : f none = .error .typeError) (hok : ∀ v, ∃ b, f (some v) = .ok b) :
    ∀ (l : List Sample) (i : ℕ), none ∈ l → flagsAux f l i = .error .typeError := by
  intro l
  induction l with
  | nil => intro i h; exact absurd h (List.not_mem_nil _)
  | cons s rest ih =>
    intro i h
    cases s with
    | none => unfold flagsAux; rw [hf]
    | some v =>
      obtain ⟨b, hb⟩ := hok v
      have hmem : (none : Sample) ∈ rest := by
        rcases List.mem_cons.mp h with h1 | h1
        · exact absurd h1.symm (by simp)
        · exact h1
      unfold flagsAux
      rw [hb, ih (i + 1) hmem]

/-- C6 (amended): whenever the signal contains a missing sample and a
numeric threshold criterion (`threshold_high` or `threshold_low`) is
enabled, `remove_shots` raises a `TypeError` — the comparison of `None`
against a number does not short-circuit in Python 3 (the docstring
accordingly advises running the missing-value fill "without other
parameters"). -/
theorem remove_shots_none_threshold_raises (p : ShotParams) (sig : List Sample)
    (hn : none ∈ sig) (hth : p.threshold_high ≠ none ∨ p.threshold_low ≠ none) :
    remove_shots p sig = .error Err.typeError := by
  obtain ⟨th, tl, dv, po, nz, zz, jp⟩ := p
  unfold remove_shots shotIndexes
  cases th with
  | some t =>
    dsimp only
    rw [flagsAux_error_of_none (fun s => sGt s t) rfl (fun v => ⟨vGtQ v t, rfl⟩) sig 0 hn]
    rfl
  | none =>
    cases tl with
    | some t =>
      dsimp only
      rw [flagsAux_error_of_none (fun s => sLt s t) rfl
        (fun v => by cases v <;> exact ⟨_, rfl⟩) sig 0 hn]
      rfl
    | none => simp at hth

/-- Witness for C6 (amended): `[None]` with `threshold_high=5` raises. -/
theorem remove_shots_none_threshold_raises_witness :
    remove_shots pHigh5 [none] = .error Err.typeError :=
  remove_shots_none_threshold_raises pHigh5 [none] (List.mem_singleton.mpr rfl)
    (Or.inl (by with_unfolding_all decide))

/-! ### Claim C5 (amended): the all-missing signal is filled with NaN -/

theorem getD_replicate {α : Type} (a d : α) : ∀ (n i : ℕ), i < n →
    (List.replicate n a).getD i d = a := by
  intro n
  induction n with
  | zero => intro i h; omega
  | succ m ih =>
    intro i h
    rw [List.replicate_succ]
    cases i with
    | zero => rfl
    | succ j => rw [List.getD_cons_succ]; exact ih j (by omega)

theorem set_append_replicate {α : Type} (a v b : α) :
    ∀ (k : ℕ) (l : List α),
    (List.replicate k a ++ b :: l).set k v = List.replicate k a ++ v :: l := by
  intro k
  induction k with
  | zero => intro l; rfl
  | succ m ih => intro l; rw [List.replicate_succ]; simpa using ih l

theorem stopExtend_range'_append : ∀ (r s : ℕ) (post : List ℕ),
    (∀ x ∈ post, x ≠ s + r) → stopExtend s (List.range' s r ++ post) = s + r := by
  intro r
  induction r with
  | zero =>
    intro s post hp
    cases post with
    | nil => rfl
    | cons p ps =>
      have : p ≠ s := fun h => hp p (List.mem_cons_self _ _) (by omega)
      unfold stopExtend
      simp [this]
  | succ m ih =>
    intro s post hp
    show stopExtend s (s :: (List.range' (s + 1) m ++ post)) = s + (m + 1)
    unfold stopExtend
    rw [if_pos rfl]
    have := ih (s + 1) post (fun x hx => by have := hp x hx; omega)
    rw [this]
    omega

theorem filterMap_id_replicate_some (a : Val) : ∀ n,
    (List.replicate n (some a : Sample)).filterMap id = List.replicate n a := by
  intro n
  induction n with
  | zero => rfl
  | succ m ih => rw [List.replicate_succ, List.replicate_succ, List.filterMap_cons]; simp [ih]

theorem filterMap_id_replicate_none : ∀ n,
    (List.replicate n (none : Sample)).filterMap id = [] := by
  intro n
  induction n with
  | zero => rfl
  | succ m ih => rw [List.replicate_succ, List.filterMap_cons]; simp [ih]

theorem meanV_replicate_nan : ∀ k, meanV (List.replicate k Val.nan) = Val.nan := by
  intro k
  cases k with
  | zero => rfl
  | succ m => rw [List.replicate_succ]; unfold meanV hasNan; simp

theorem flagsAux_replicate_none (f : Sample → Except Err Bool) (hf : f none = .ok true) :
    ∀ (n i : ℕ), flagsAux f (List.replicate n (none : Sample)) i = .ok (List.range' i n) := by
  intro n
  induction n with
  | zero => intro i; rfl
  | succ m ih =>
    intro i
    rw [List.replicate_succ]
    unfold flagsAux
    rw [hf, ih (i + 1)]
    rfl

theorem shotIndexes_nones_all_missing (n : ℕ) :
    shotIndexes pNones (List.replicate n none) = .ok (List.range n) := by
  have h : flagsAux (fun s => .ok s.isNone) (List.replicate n (none : Sample)) 0 =
      .ok (List.range n) := by
    rw [List.range_eq_range']
    exact flagsAux_replicate_none (fun s => .ok s.isNone) rfl n 0
  have e1 : shotIndexes pNones (List.replicate n none) =
      ebind (flagsAux (fun s => .ok s.isNone) (List.replicate n none) 0)
        (fun l4 => .ok (sortDedup ((l4 ++ []) ++ []))) := rfl
  rw [e1, h]
  dsimp only [ebind]
  rw [List.append_nil, List.append_nil]
  unfold sortDedup
  rw [(List.nodup_range n).dedup, (List.sorted_le_range n).insertionSort_eq]

theorem fillLoop_all_missing : ∀ (r k : ℕ),
    fillLoop (List.replicate k (some Val.nan) ++ List.replicate r (none : Sample))
      (List.range' k r) = .ok (List.replicate (k + r) (some Val.nan)) := by
  intro r
  induction r with
  | zero => intro k; simp [fillLoop]
  | succ m ih =>
    intro k
    have hlen : (List.replicate k (some Val.nan) ++
        List.replicate (m + 1) (none : Sample)).length = k + (m + 1) := by
      simp
    show fillLoop _ (k :: List.range' (k + 1) m) = _
    unfold fillLoop fillStep fillStepG
    rw [hlen]
    have hstop : runStop (k + (m + 1)) k (List.range' (k + 1) m) = k + m := by
      unfold runStop
      have hse : stopExtend (k + 1) (List.range' (k + 1) m) = k + (m + 1) := by
        have := stopExtend_range'_append m (k + 1) [] (by simp)
        rw [List.append_nil] at this
        rw [this]
        omega
      rw [hse, if_pos rfl]
      omega
    rw [hstop]
    have htv : (List.replicate k (some Val.nan) ++
        List.replicate (m + 1) (none : Sample)).getD (k + m) none = none := by
      rw [List.getD_append_right _ _ _ _ (by simp)]
      rw [List.length_replicate]
      exact getD_replicate _ _ (m + 1) (k + m - k) (by omega)
    have hsv : (if 0 < (k : ℤ) - 1 then
        (List.replicate k (some Val.nan) ++ List.replicate (m + 1) (none : Sample)).getD
          (k - 1) none
      else meanSome (List.replicate k (some Val.nan) ++
        List.replicate (m + 1) (none : Sample))) = some Val.nan := by
      by_cases hk : 0 < (k : ℤ) - 1
      · rw [if_pos hk, List.getD_append _ _ _ _ (by rw [List.length_replicate]; omega)]
        exact getD_replicate _ _ k (k - 1) (by omega)
      · rw [if_neg hk]
        unfold meanSome
        rw [List.filterMap_append, filterMap_id_replicate_some, filterMap_id_replicate_none,
          List.append_nil, meanV_replicate_nan]
    rw [hsv, htv]
    unfold fillCore
    dsimp only
    rw [List.replicate_succ _ m, set_append_replicate]
    have : List.replicate k (some Val.nan) ++ some Val.nan :: List.replicate m none =
        List.replicate (k + 1) (some Val.nan) ++ List.replicate m (none : Sample) := by
      rw [List.replicate_succ']
      simp
    rw [this, ih (k + 1)]
    have : k + 1 + m = k + (m + 1) := by omega
    rw [this]

/-- C5 (amended): on a signal all of whose samples are missing, with the
`nones` criterion enabled, `remove_shots` does not raise: every index is
flagged, the mean over the empty set of non-missing samples is NaN (a
numpy warning, not an exception), and every sample is flat-filled with
NaN, so the result is the all-NaN signal. -/
theorem remove_shots_all_missing_nan (n : ℕ) :
    remove_shots pNones (List.replicate n none) =
      .ok (List.replicate n (some Val.nan)) := by
  unfold remove_shots
  rw [shotIndexes_nones_all_missing]
  dsimp only [ebind]
  rw [List.range_eq_range']
  simpa using fillLoop_all_missing n 0

/-- Witness for C5 (amended), at the concrete length 2. -/
theorem remove_shots_all_missing_nan_witness :
    remove_shots pNones (List.replicate 2 none) =
      .ok (List.replicate 2 (some Val.nan)) :=
  remove_shots_all_missing_nan 2

/-! ### Claim C9: an index is assigned iff it is flagged -/

/-- C9: when `remove_shots` flags `flags` and returns `res`, the
replacement loop assigns exactly the indices of `flags` (one write per
flagged index, in ascending order), and every unflagged index keeps its
input sample.  (A write may re-store an equal value, e.g. in the
end-of-signal clamp case; "edited" here means "assigned".) -/
theorem remove_shots_writes_iff_flagged (p : ShotParams) (sig : List Sample)
    (flags : List ℕ) (res : List Sample)
    (h1 : shotIndexes p sig = .ok flags) (h2 : remove_shots p sig = .ok res) :
    fillLoopW sig flags = .ok (res, flags) ∧
      ∀ k, k ∉ flags → res.getD k none = sig.getD k none := by
  have hl : fillLoop sig flags = .ok res := by
    unfold remove_shots at h2
    rw [h1] at h2
    exact h2
  refine ⟨?_, fun k hk => fillLoop_frame flags sig res hl k hk⟩
  rw [fillLoopW_eq, hl]
  rfl

/-- Witness for C9: `[0,4,100,8]` with `threshold_high=50` flags exactly
index 2; the loop writes exactly there and index 0 is untouched. -/
theorem remove_shots_writes_iff_flagged_witness :
    fillLoopW (numList [0, 4, 100, 8]) [2] = .ok (numList [0, 4, 6, 8], [2]) ∧
      (numList [0, 4, 6, 8]).getD 0 none = (numList [0, 4, 100, 8]).getD 0 none := by
  have h := remove_shots_writes_iff_flagged pHigh50 (numList [0, 4, 100, 8]) [2]
    (numList [0, 4, 6, 8]) (by with_unfolding_all rfl) (by with_unfolding_all rfl)
  exact ⟨h.1, h.2 0 (by decide)⟩

/-! ### Claim C3: the replacement formula -/

/-- Counterexample to C3: on `[0, 4, 100, 8]` with `threshold_high=50`
the run is the single index 2; the formula of the claim puts `pos = 0` there
and prescribes the start value 4, but the code assigns 6 (its `pos` is
`(shot - start)/(stop - start) = 1/2`, never 0). -/
theorem replacement_formula_refuted :
    remove_shots pHigh50 (numList [0, 4, 100, 8]) = .ok (numList [0, 4, 6, 8]) ∧
      (numList [0, 4, 6, 8]).getD 2 none ≠ c3ClaimValue (numList [0, 4, 100, 8]) 2 2 2 :=
  ⟨by with_unfolding_all rfl, by with_unfolding_all decide⟩

theorem posOf_eq (k stop : ℕ) : posOf k stop = 1 / ((stop : ℚ) - (k : ℚ) + 1) := by
  unfold posOf
  congr 1 <;> push_cast <;> ring

theorem fillCore_q (sig : List Sample) (k stop : ℕ) (u t : ℚ) :
    fillCore sig k stop (some (Val.q u)) (some (Val.q t)) =
      .ok (sig.set k (some (Val.q (u + (t - u) * posOf k stop)))) := rfl

/-- C3 (amended): the loop processes each flagged index `k` on its own
(`shot_index = k`, not the first index of the run): with
`stop = runStop n k rest` the assigned value is
`sv + (tv - sv) * pos` with `pos = 1/(stop - k + 1)`, where the start
value is the current sample at `k - 1` whenever `k - 1 ≥ 1` — for
`k ≤ 1`, that is also when the run starts at index 1, the mean of the
currently non-missing samples is used instead (`start_index > 0` is
strict) — and `tv` is the current sample at `stop`. -/
theorem fillStep_value_formula (sig : List Sample) (k : ℕ) (rest : List ℕ) (u t : ℚ)
    (htv : sig.getD (runStop sig.length k rest) none = some (Val.q t))
    (hsv : (if 2 ≤ k then sig.getD (k - 1) none else meanSome sig) = some (Val.q u)) :
    fillStep sig k rest = .ok (sig.set k (some (Val.q
      (u + (t - u) * (1 / ((runStop sig.length k rest : ℚ) - (k : ℚ) + 1)))))) := by
  unfold fillStep fillStepG
  by_cases hk : 2 ≤ k
  · rw [if_pos hk] at hsv
    rw [if_pos (by omega : (0 : ℤ) < (k : ℤ) - 1), hsv, htv, fillCore_q, posOf_eq]
  · rw [if_neg hk] at hsv
    rw [if_neg (by omega : ¬ (0 : ℤ) < (k : ℤ) - 1), hsv, htv, fillCore_q, posOf_eq]

/-- Witness for C3 (amended): the flagged index 2 of `[0, 4, 100, 8]`
has `stop = 3`, start value 4 at index 1, stop value 8, and is assigned
`4 + (8 - 4) * (1 / (3 - 2 + 1)) = 6`. -/
theorem fillStep_value_formula_witness :
    fillStep (numList [0, 4, 100, 8]) 2 [] =
      .ok ((numList [0, 4, 100, 8]).set 2 (some (Val.q
        (4 + (8 - 4) * (1 / ((runStop (numList [0, 4, 100, 8]).length 2 [] : ℚ) -
          (2 : ℚ) + 1)))))) :=
  fillStep_value_formula (numList [0, 4, 100, 8]) 2 [] 4 8
    (by with_unfolding_all rfl) (by with_unfolding_all rfl)

/-! ### Claim C4: which slots the interpolation anchors are read from -/

/-- Counterexample to C4: on `[0, 4, 100, 100, 8]` with
`threshold_high=50` the run is `[2, 3]`; processing index 3 reads its
start anchor at index 2 — inside the run and already overwritten — so
the result differs from the variant `fillLoopO` that reads both anchors
from the original signal (20/3 versus 54 at index 3). -/
theorem anchor_independence_refuted :
    shotIndexes pHigh50 (numList [0, 4, 100, 100, 8]) = .ok [2, 3] ∧
      remove_shots pHigh50 (numList [0, 4, 100, 100, 8]) =
        .ok (numList [0, 4, 16/3, 20/3, 8]) ∧
      fillLoopO (numList [0, 4, 100, 100, 8]) (numList [0, 4, 100, 100, 8]) [2, 3] =
        .ok (numList [0, 4, 16/3, 54, 8]) ∧
      numList [0, 4, 16/3, 20/3, 8] ≠ numList [0, 4, 16/3, 54, 8] :=
  ⟨by with_unfolding_all rfl, by with_unfolding_all rfl, by with_unfolding_all rfl,
    by with_unfolding_all decide⟩

theorem stopExtend_ge : ∀ (l : List ℕ) (s : ℕ), s ≤ stopExtend s l := by
  intro l
  induction l with
  | nil => intro s; exact Nat.le_refl s
  | cons r rs ih =>
    intro s
    unfold stopExtend
    by_cases h : r = s
    · rw [if_pos h]; exact Nat.le_trans (Nat.le_succ s) (ih (s + 1))
    · rw [if_neg h]

theorem runStop_ge (n shot : ℕ) (rest : List ℕ) (h : shot < n) :
    shot ≤ runStop n shot rest := by
  unfold runStop
  by_cases he : stopExtend (shot + 1) rest = n
  · rw [if_pos he]; omega
  · rw [if_neg he]
    exact Nat.le_trans (Nat.le_succ shot) (stopExtend_ge rest (shot + 1))

theorem fillLoop_eq_fillLoopO_aux : ∀ (shots : List ℕ) (orig sig : List Sample),
    sig.length = orig.length →
    (∀ x, sig.getD x none ≠ orig.getD x none → ∀ s ∈ shots, x + 2 ≤ s) →
    List.Pairwise (fun a b => a + 2 ≤ b) shots →
    (∀ s ∈ shots, s < sig.length) →
    fillLoop sig shots = fillLoopO orig sig shots := by
  intro shots
  induction shots with
  | nil => intro orig sig _ _ _ _; rfl
  | cons shot rest ih =>
    intro orig sig hlen hag hpair hlt
    have hshot : shot < sig.length := hlt shot (List.mem_cons_self _ _)
    have hsv : (if 0 < (shot : ℤ) - 1 then sig.getD (shot - 1) none else meanSome sig) =
        (if 0 < (shot : ℤ) - 1 then orig.getD (shot - 1) none else meanSome sig) := by
      by_cases hc : 0 < (shot : ℤ) - 1
      · rw [if_pos hc, if_pos hc]
        by_contra hne
        have := hag (shot - 1) hne shot (List.mem_cons_self _ _)
        omega
      · rw [if_neg hc, if_neg hc]
    have htv : sig.getD (runStop sig.length shot rest) none =
        orig.getD (runStop sig.length shot rest) none := by
      by_contra hne
      have h1 := hag (runStop sig.length shot rest) hne shot (List.mem_cons_self _ _)
      have h2 := runStop_ge sig.length shot rest hshot
      omega
    have hstep : fillStep sig shot rest = fillStepG orig sig shot rest := by
      unfold fillStep fillStepG
      rw [hsv, htv]
    unfold fillLoop fillLoopO
    rw [hstep]
    cases hres : fillStepG orig sig shot rest with
    | error e => rfl
    | ok sig1 =>
      obtain ⟨v, hv⟩ := fillStepG_ok_shape orig sig shot rest sig1 hres
      refine ih orig sig1 (by rw [hv, List.length_set]; exact hlen) ?_
        (List.Pairwise.of_cons hpair)
        (fun x hx => by rw [hv, List.length_set]; exact hlt x (List.mem_cons_of_mem _ hx))
      intro x hx s hs
      by_cases hxs : x = shot
      · subst hxs
        exact (List.pairwise_cons.mp hpair).1 s hs
      · rw [hv, getD_set_ne _ _ _ _ _ (fun he => hxs he.symm)] at hx
        exact hag x hx s (List.mem_cons_of_mem _ hs)

/-- C4 (amended): the loop reads its start anchor at `shot - 1` for the
index `shot` being processed, so inside a multi-index run the anchor is
the previously overwritten sample (see the counterexample); only when
every run is a singleton (all flagged indices pairwise at distance at
least 2) is each anchor outside every run, and then `remove_shots`
coincides with the variant that reads all anchors from the original
signal. -/
theorem singleton_runs_use_original_anchors (p : ShotParams) (sig : List Sample)
    (shots : List ℕ) (h1 : shotIndexes p sig = .ok shots)
    (hgap : List.Pairwise (fun a b => a + 2 ≤ b) shots)
    (hlt : ∀ s ∈ shots, s < sig.length) :
    remove_shots p sig = fillLoopO sig sig shots := by
  unfold remove_shots
  rw [h1]
  exact fillLoop_eq_fillLoopO_aux shots sig sig rfl (fun x hx => absurd rfl hx) hgap hlt

/-- Witness for C4 (amended): `[0, 9, 0, 0, 9, 0]` with
`threshold_high=5` flags `[1, 4]` — two singleton runs — and the result
equals the original-anchor variant. -/
theorem singleton_runs_use_original_anchors_witness :
    remove_shots pHigh5 (numList [0, 9, 0, 0, 9, 0]) =
      fillLoopO (numList [0, 9, 0, 0, 9, 0]) (numList [0, 9, 0, 0, 9, 0]) [1, 4] :=
  singleton_runs_use_original_anchors pHigh5 (numList [0, 9, 0, 0, 9, 0]) [1, 4]
    (by with_unfolding_all rfl) (by decide) (by decide)

/-! ### Claim C7: the candidate window of detect_peaks -/

theorem updMax_bound (B i : ℕ) (v : ℚ) (st : DP) (hi : i ≤ B) (h : DPB B st) :
    DPB B (updMax i v st) := by
  obtain ⟨h1, h2, h3, h4⟩ := h
  unfold updMax
  split_ifs
  · exact ⟨hi, h2, h3, h4⟩
  · exact ⟨h1, h2, h3, h4⟩

theorem updMin_bound (B i : ℕ) (v : ℚ) (st : DP) (hi : i ≤ B) (h : DPB B st) :
    DPB B (updMin i v st) := by
  obtain ⟨h1, h2, h3, h4⟩ := h
  unfold updMin
  split_ifs
  · exact ⟨h1, hi, h3, h4⟩
  · exact ⟨h1, h2, h3, h4⟩

theorem dpStepConfirm_bound (sig : List ℚ) (la : ℕ) (delta : ℚ) (B i : ℕ) (st : DP)
    (h : DPB B st) : DPB B (dpStepConfirm sig la delta i st).1 := by
  obtain ⟨h1, h2, h3, h4⟩ := h
  unfold dpStepConfirm
  split_ifs
  · refine ⟨h1, h2, ?_, h4⟩
    intro p hp
    rcases List.mem_append.mp hp with h5 | h5
    · exact h3 p h5
    · rw [List.mem_singleton.mp h5]; exact h1
  · refine ⟨h1, h2, h3, ?_⟩
    intro p hp
    rcases List.mem_append.mp hp with h5 | h5
    · exact h4 p h5
    · rw [List.mem_singleton.mp h5]; exact h2
  · exact ⟨h1, h2, h3, h4⟩

theorem dpStep_bound (sig : List ℚ) (la : ℕ) (delta : ℚ) (B i : ℕ) (st : DP)
    (hi : i ≤ B) (h : DPB B st) : DPB B (dpStep sig la delta i st).1 :=
  dpStepConfirm_bound sig la delta B i _
    (updMin_bound B i _ _ hi (updMax_bound B i _ st hi h))

theorem dpLoop_bound (sig : List ℚ) (la : ℕ) (delta : ℚ) (B : ℕ) :
    ∀ (idxs : List ℕ) (st : DP), (∀ i ∈ idxs, i ≤ B) → DPB B st →
      DPB B (dpLoop sig la delta idxs st) := by
  intro idxs
  induction idxs with
  | nil => intro st _ h; exact h
  | cons i rest ih =>
    intro st hidx h
    unfold dpLoop
    rcases hstep : dpStep sig la delta i st with ⟨st', brk⟩
    have hb : DPB B st' := by
      have := dpStep_bound sig la delta B i st (hidx i (List.mem_cons_self _ _)) h
      rwa [hstep] at this
    dsimp only
    cases brk with
    | true => rw [if_pos rfl]; exact hb
    | false =>
      rw [if_neg (by simp)]
      exact ih st' (fun j hj => hidx j (List.mem_cons_of_mem _ hj)) hb

/-- C7: every peak or valley `detect_peaks` returns carries an index at
most `n - lookahead - 1` (the scan only considers the positions of
`signal[:-lookahead]`), and `lookahead ≥ n` yields `([], [])`. -/
theorem detect_peaks_window_bound (sig : List ℚ) (la : ℕ) (delta : ℚ) :
    (∀ p ∈ (detect_peaks sig la delta).1, p.1 ≤ sig.length - la - 1) ∧
    (∀ p ∈ (detect_peaks sig la delta).2, p.1 ≤ sig.length - la - 1) ∧
    (sig.length ≤ la → detect_peaks sig la delta = ([], [])) := by
  have hidx : ∀ i ∈ dpIdxs sig la, i ≤ sig.length - la - 1 := by
    intro i hi
    unfold dpIdxs at hi
    by_cases h0 : la = 0
    · rw [if_pos h0] at hi; exact absurd hi (List.not_mem_nil i)
    · rw [if_neg h0] at hi
      have := List.mem_range.mp hi
      omega
  have hB := dpLoop_bound sig la delta (sig.length - la - 1) (dpIdxs sig la) dpInit hidx
    ⟨Nat.zero_le _, Nat.zero_le _,
      fun p hp => absurd hp (List.not_mem_nil p),
      fun p hp => absurd hp (List.not_mem_nil p)⟩
  refine ⟨hB.2.2.1, hB.2.2.2, ?_⟩
  intro hle
  have hnil : dpIdxs sig la = [] := by
    unfold dpIdxs
    by_cases h0 : la = 0
    · rw [if_pos h0]
    · rw [if_neg h0, Nat.sub_eq_zero_of_le hle]; rfl
  unfold detect_peaks
  rw [hnil]
  rfl

/-- Witness for C7: a signal of length 2 with `lookahead = 5` yields two
empty sequences. -/
theorem detect_peaks_window_bound_witness :
    detect_peaks [1, 2] 5 0 = ([], []) :=
  (detect_peaks_window_bound [1, 2] 5 0).2.2 (by decide)

/-! ### Claim C10: a run with numeric neighbors receives the straight line -/

theorem fillLoop_cons (sig : List Sample) (x : ℕ) (rest : List ℕ) :
    fillLoop sig (x :: rest) =
      (match fillStep sig x rest with
        | .error e => .error e
        | .ok sig1 => fillLoop sig1 rest) := rfl

theorem fillLoop_cons_error (sig : List Sample) (x : ℕ) (rest : List ℕ) (e : Err)
    (h : fillStep sig x rest = .error e) : fillLoop sig (x :: rest) = .error e := by
  rw [fillLoop_cons, h]

theorem fillLoop_cons_ok (sig : List Sample) (x : ℕ) (rest : List ℕ) (sig1 : List Sample)
    (h : fillStep sig x rest = .ok sig1) : fillLoop sig (x :: rest) = fillLoop sig1 rest := by
  rw [fillLoop_cons, h]

theorem writeAll_length (g : ℕ → Sample) : ∀ (l : List ℕ) (sig : List Sample),
    (writeAll g sig l).length = sig.length := by
  intro l
  induction l with
  | nil => intro sig; rfl
  | cons i rest ih => intro sig; rw [writeAll, ih, List.length_set]

theorem writeAll_getD_not_mem (g : ℕ → Sample) : ∀ (l : List ℕ) (sig : List Sample) (k : ℕ),
    k ∉ l → (writeAll g sig l).getD k none = sig.getD k none := by
  intro l
  induction l with
  | nil => intro sig k _; rfl
  | cons i rest ih =>
    intro sig k hk
    rw [writeAll, ih _ k (fun h => hk (List.mem_cons_of_mem _ h)),
      getD_set_ne _ _ _ _ _ (fun h => hk (by rw [← h]; exact List.mem_cons_self _ _))]

theorem writeAll_getD_mem (g : ℕ → Sample) : ∀ (l : List ℕ) (sig : List Sample) (k : ℕ),
    k ∈ l → k < sig.length → (writeAll g sig l).getD k none = g k := by
  intro l
  induction l with
  | nil => intro sig k hk _; exact absurd hk (List.not_mem_nil k)
  | cons i rest ih =>
    intro sig k hk hlt
    rw [writeAll]
    by_cases hk2 : k ∈ rest
    · exact ih _ k hk2 (by rw [List.length_set]; exact hlt)
    · have hki : k = i := by
        rcases List.mem_cons.mp hk with h | h
        · exact h
        · exact absurd h hk2
      subst hki
      rw [writeAll_getD_not_mem g rest _ k hk2, getD_set_self _ _ _ _ hlt]

theorem writeAll_congr (g1 g2 : ℕ → Sample) : ∀ (l : List ℕ) (sig : List Sample),
    (∀ i ∈ l, g1 i = g2 i) → writeAll g1 sig l = writeAll g2 sig l := by
  intro l
  induction l with
  | nil => intro sig _; rfl
  | cons i rest ih =>
    intro sig h
    rw [writeAll, writeAll, h i (List.mem_cons_self _ _),
      ih _ (fun j hj => h j (List.mem_cons_of_mem _ hj))]

theorem stopExtend_append_lt : ∀ (xs ys : List ℕ) (s A : ℕ),
    (∀ u ∈ xs, u + 2 ≤ A) → (∀ v ∈ ys, A ≤ v) → s < A →
    stopExtend s (xs ++ ys) = stopExtend s xs := by
  intro xs
  induction xs with
  | nil =>
    intro ys s A _ hys hs
    cases ys with
    | nil => rfl
    | cons y ys' =>
      show stopExtend s (y :: ys') = s
      unfold stopExtend
      rw [if_neg (by have := hys y (List.mem_cons_self _ _); omega)]
  | cons x xs' ih =>
    intro ys s A hxs hys hs
    show stopExtend s (x :: (xs' ++ ys)) = stopExtend s (x :: xs')
    unfold stopExtend
    by_cases hx : x = s
    · rw [if_pos hx, if_pos hx]
      exact ih ys (s + 1) A (fun u hu => hxs u (List.mem_cons_of_mem _ hu)) hys
        (by have := hxs x (List.mem_cons_self _ _); omega)
    · rw [if_neg hx, if_neg hx]

theorem fillStepG_congr_stop (anch sig : List Sample) (shot : ℕ) (r1 r2 : List ℕ)
    (h : stopExtend (shot + 1) r1 = stopExtend (shot + 1) r2) :
    fillStepG anch sig shot r1 = fillStepG anch sig shot r2 := by
  unfold fillStepG runStop
  rw [h]

theorem fillLoop_append : ∀ (xs ys : List ℕ) (sig : List Sample) (A : ℕ),
    (∀ u ∈ xs, u + 2 ≤ A) → (∀ v ∈ ys, A ≤ v) →
    fillLoop sig (xs ++ ys) = ebind (fillLoop sig xs) (fun s1 => fillLoop s1 ys) := by
  intro xs
  induction xs with
  | nil => intro ys sig A _ _; rfl
  | cons x xs' ih =>
    intro ys sig A hxs hys
    have he : fillStep sig x (xs' ++ ys) = fillStep sig x xs' := by
      unfold fillStep
      exact fillStepG_congr_stop sig sig x _ _
        (stopExtend_append_lt xs' ys (x + 1) A
          (fun u hu => hxs u (List.mem_cons_of_mem _ hu)) hys
          (by have := hxs x (List.mem_cons_self _ _); omega))
    show fillLoop sig (x :: (xs' ++ ys)) = ebind (fillLoop sig (x :: xs')) fun s1 => fillLoop s1 ys
    cases hres : fillStep sig x xs' with
    | error e =>
      rw [fillLoop_cons_error sig x (xs' ++ ys) e (he.trans hres),
        fillLoop_cons_error sig x xs' e hres]
      rfl
    | ok sig1 =>
      rw [fillLoop_cons_ok sig x (xs' ++ ys) sig1 (he.trans hres),
        fillLoop_cons_ok sig x xs' sig1 hres]
      exact ih ys sig1 A (fun u hu => hxs u (List.mem_cons_of_mem _ hu)) hys

theorem fillLoop_run (t : ℚ) (post : List ℕ) : ∀ (r k : ℕ) (sig : List Sample) (u : ℚ),
    2 ≤ k → k + r < sig.length →
    sig.getD (k - 1) none = some (Val.q u) →
    sig.getD (k + r) none = some (Val.q t) →
    (∀ x ∈ post, k + r < x) →
    fillLoop sig (List.range' k r ++ post) = fillLoop (setLine sig k r u t) post := by
  intro r
  induction r with
  | zero => intro k sig u _ _ _ _ _; rfl
  | succ m ih =>
    intro k sig u hk2 hlen hu ht hpost
    have hstop : runStop sig.length k (List.range' (k + 1) m ++ post) = k + m + 1 := by
      unfold runStop
      have hse : stopExtend (k + 1) (List.range' (k + 1) m ++ post) = k + m + 1 := by
        have h1 := stopExtend_range'_append m (k + 1) post
          (fun x hx => by have := hpost x hx; omega)
        rw [h1]
        omega
      rw [hse, if_neg (by omega : ¬ (k + m + 1 = sig.length))]
    have htv : sig.getD (runStop sig.length k (List.range' (k + 1) m ++ post)) none =
        some (Val.q t) := by
      rw [hstop]
      have he : k + m + 1 = k + (m + 1) := by omega
      rw [he]
      exact ht
    have hsv : (if 2 ≤ k then sig.getD (k - 1) none else meanSome sig) = some (Val.q u) := by
      rw [if_pos hk2]
      exact hu
    have hfs := fillStep_value_formula sig k (List.range' (k + 1) m ++ post) u t htv hsv
    rw [hstop] at hfs
    have hw : (1 : ℚ) / (((k + m + 1 : ℕ) : ℚ) - (k : ℚ) + 1) = 1 / ((m : ℚ) + 2) := by
      congr 1
      push_cast
      ring
    rw [hw] at hfs
    show fillLoop sig (k :: (List.range' (k + 1) m ++ post)) =
      fillLoop (setLine sig k (m + 1) u t) post
    rw [fillLoop_cons_ok sig k (List.range' (k + 1) m ++ post) _ hfs]
    have hIH := ih (k + 1) (sig.set k (some (Val.q (u + (t - u) * (1 / ((m : ℚ) + 2))))))
      (u + (t - u) * (1 / ((m : ℚ) + 2))) (by omega)
      (by rw [List.length_set]; omega)
      (by rw [show k + 1 - 1 = k from rfl, getD_set_self _ _ _ _ (by omega : k < sig.length)])
      (by
        rw [getD_set_ne _ _ _ _ _ (by omega : k ≠ k + 1 + m),
          show k + 1 + m = k + (m + 1) from by omega]
        exact ht)
      (fun x hx => by have := hpost x hx; omega)
    rw [hIH]
    congr 1
    have e1 : setLine sig k (m + 1) u t =
        writeAll (lineSample k (m + 1) u t)
          (sig.set k (lineSample k (m + 1) u t k)) (List.range' (k + 1) m) := rfl
    have e2 : lineSample k (m + 1) u t k =
        some (Val.q (u + (t - u) * (1 / ((m : ℚ) + 2)))) := by
      unfold lineSample
      refine congrArg (fun z : ℚ => some (Val.q z)) ?_
      push_cast
      ring
    rw [e1, e2]
    unfold setLine
    refine writeAll_congr _ _ (List.range' (k + 1) m) _ (fun i _ => ?_)
    unfold lineSample
    refine congrArg (fun z : ℚ => some (Val.q z)) ?_
    have hm1 : ((m : ℚ) + 1) ≠ 0 := by positivity
    have hm2 : ((m : ℚ) + 2) ≠ 0 := by positivity
    push_cast
    field_simp
    ring

/-- C10: for a maximal flagged run `a .. a + m - 1` with `a ≥ 2`, a
numeric sample before it and a numeric sample right after it (strictly
inside the signal), every index of the run ends up carrying exactly the
straight line through `(a - 1, s)` and `(a + m, t)` — even though each
per-index replacement after the first one reads the previously replaced
sample at `k - 1` as its start anchor, the telescoping cancels in exact
arithmetic.  The run being maximal and flagged is expressed by the
decomposition of the sorted flag list into `pre` (ending at least two
below `a`), the run `a .. a + m - 1`, and `post` (starting after
`a + m`). -/
theorem run_replacement_is_line (p : ShotParams) (sig : List Sample) (flags : List ℕ)
    (res : List Sample) (pre post : List ℕ) (a m : ℕ) (s t : ℚ)
    (hf : shotIndexes p sig = .ok flags)
    (hr : remove_shots p sig = .ok res)
    (hdec : flags = pre ++ (List.range' a m ++ post))
    (ha : 2 ≤ a) (hn : a + m < sig.length)
    (hpre : ∀ x ∈ pre, x + 2 ≤ a)
    (hpost : ∀ x ∈ post, a + m < x)
    (hs : sig.getD (a - 1) none = some (Val.q s))
    (ht : sig.getD (a + m) none = some (Val.q t)) :
    ∀ k, a ≤ k → k < a + m →
      res.getD k none = some (Val.q
        (s + (t - s) * (((k : ℚ) - ((a : ℚ) - 1)) /
          (((a + m : ℕ) : ℚ) - ((a : ℚ) - 1))))) := by
  have hloop : fillLoop sig flags = .ok res := by
    unfold remove_shots at hr
    rw [hf] at hr
    exact hr
  rw [hdec] at hloop
  have hys : ∀ v ∈ List.range' a m ++ post, a ≤ v := by
    intro v hv
    rcases List.mem_append.mp hv with h | h
    · exact (List.mem_range'_1.mp h).1
    · have := hpost v h; omega
  rw [fillLoop_append pre (List.range' a m ++ post) sig a hpre hys] at hloop
  cases hpre' : fillLoop sig pre with
  | error e => rw [hpre'] at hloop; exact absurd hloop (fun h => Except.noConfusion h)
  | ok sig1 =>
    rw [hpre'] at hloop
    dsimp only [ebind] at hloop
    have hlen1 : sig1.length = sig.length := fillLoop_length pre sig sig1 hpre'
    have hfr := fillLoop_frame pre sig sig1 hpre'
    have hs1 : sig1.getD (a - 1) none = some (Val.q s) := by
      rw [hfr (a - 1) (fun hmem => by have := hpre _ hmem; omega)]
      exact hs
    have ht1 : sig1.getD (a + m) none = some (Val.q t) := by
      rw [hfr (a + m) (fun hmem => by have := hpre _ hmem; omega)]
      exact ht
    rw [fillLoop_run t post m a sig1 s ha (by omega) hs1 ht1 hpost] at hloop
    intro k hk1 hk2
    have hkpost : k ∉ post := fun hmem => by have := hpost k hmem; omega
    rw [fillLoop_frame post _ res hloop k hkpost]
    have hset : (setLine sig1 a m s t).getD k none = lineSample a m s t k :=
      writeAll_getD_mem (lineSample a m s t) (List.range' a m) sig1 k
        (List.mem_range'_1.mpr ⟨hk1, hk2⟩) (by omega)
    rw [hset]
    unfold lineSample
    refine congrArg (fun z : ℚ => some (Val.q z)) ?_
    push_cast
    rw [show (a : ℚ) + (m : ℚ) - ((a : ℚ) - 1) = (m : ℚ) + 1 from by ring]
    ring

/-- Witness for C10: the run `[2, 3]` of `[0, 4, 100, 100, 8]` under
`threshold_high=50` receives the line through `(1, 4)` and `(4, 8)`:
`16/3` at index 2 (and `20/3` at index 3). -/
theorem run_replacement_is_line_witness :
    (numList [0, 4, 16/3, 20/3, 8]).getD 2 none = some (Val.q (16/3)) := by
  have h := run_replacement_is_line pHigh50 (numList [0, 4, 100, 100, 8]) [2, 3]
    (numList [0, 4, 16/3, 20/3, 8]) [] [] 2 2 4 8
    (by with_unfolding_all rfl) (by with_unfolding_all rfl)
    (by with_unfolding_all rfl) (by decide) (by decide)
    (fun x hx => absurd hx (List.not_mem_nil x))
    (fun x hx => absurd hx (List.not_mem_nil x))
    (by with_unfolding_all rfl) (by with_unfolding_all rfl)
  refine (h 2 (by decide) (by decide)).trans
    (congrArg (fun z : ℚ => some (Val.q z)) ?_)
  norm_num

end SigProc
